import Mathlib

set_option maxRecDepth 4000
set_option exponentiation.threshold 4000

/-
Verification of the numeric strategy and shrinking engine of this
repository, a shallow embedding of src/hypothesis/searchstrategy/numbers.py
together with the deferred driver of src/hypothesis/extra/twisted.py.

Python integers are modelled as ℤ.  Python floats are modelled by their
64-bit IEEE-754 bit pattern (struct.pack('!d', x) is injective on doubles,
and all float operations used by numbers.py are correctly rounded, so the
bit pattern together with exact binary rounding is a complete semantics).
The basic serialization form is an inductive Basic mirroring the primitive
JSON-like values hypothesis persists.  Pseudo random number generators are
modelled by draw oracles: universally quantified functions producing the
next raw draw, reduced into the range the corresponding Python call
guarantees.
-/

/-- Basic serialisation values: the primitive, JSON-like wire form that
to_basic produces and from_basic consumes. -/
inductive Basic where
  | int (n : ℤ)
  | str (s : String)
  | list (xs : List Basic)
  | none

/-- Python error classes crossing the strategy boundary.  badData models
hypothesis's BadData, valueError models ValueError (invalid-range at
construction time), typeError any other type failure. -/
inductive PyErr where
  | badData (msg : String)
  | valueError (msg : String)
  | typeError (msg : String)
deriving DecidableEq

deriving instance DecidableEq for Except

/-- Modelled from the spec: check_data_type (and check_type as used by
FloatStrategy.from_basic) live in hypothesis.searchstrategy.strategy, which
is not among the given sources.  Per the spec, from_basic signals a BadData
error when the persisted data is not of the expected primitive type. -/
def check_data_type_int (data : Basic) : Except PyErr ℤ :=
  match data with
  | .int n => .ok n
  | _ => .error (.badData "Expected an integer value")

/-- Python range(a, b, -1): the integers a, a-1, ..., b+1 (empty if a ≤ b). -/
def hrangeDown (a b : ℤ) : List ℤ :=
  (List.range (a - b).toNat).map (fun (k : ℕ) => a - (k : ℤ))

/-- Python range(a, b): the integers a, a+1, ..., b-1 (empty if b ≤ a). -/
def hrangeUp (a b : ℤ) : List ℤ :=
  (List.range (b - a).toNat).map (fun (k : ℕ) => a + (k : ℤ))

/-- The sampling loop of IntStrategy.simplify for x > 100 (numbers.py lines
70-76): for each drawn i, yield i unless it was seen before, and record it
as seen.  Python keeps seen as a set and adds on every iteration; a list
with unconditional cons is equivalent for membership. -/
def bigLoop : List ℤ → List ℤ → List ℤ
  | [], _ => []
  | i :: rest, seen =>
    if i ∈ seen then bigLoop rest (i :: seen)
    else i :: bigLoop rest (i :: seen)

/-- IntStrategy.simplify for a positive argument (numbers.py lines 57-76).
Python floor division // is Int.fdiv.  The draws of
random.Random(x).randint(0, x - 1) are modelled by a draw oracle r; draw
number k is r k % x which, like randint(0, x - 1), always lies in
[0, x - 1].  Theorems about this branch quantify over every oracle. -/
def simplifyPos (r : ℕ → ℕ) (x : ℤ) : List ℤ :=
  0 :: (if x = 1 then [] else
    Int.fdiv x 2 :: (if x = 2 then [] else
      if x ≤ 100 then
        (hrangeDown (x - 1) 0).filter (fun i => i ≠ Int.fdiv x 2)
      else
        bigLoop ((List.range 100).map (fun k => (r k : ℤ) % x)) [0, Int.fdiv x 2]))

/-- IntStrategy.simplify (numbers.py lines 49-76).  The branch guarded by
type(ix) != type(x) can only fire for Python 2 int versus long
representations of the same mathematical integer and is dead in a model
whose templates are mathematical integers (the source marks it pragma no
cover).  For x < 0 the code yields -x and then the negations of
simplify(-x); since -x > 0 that recursive call takes the positive branch,
written simplifyPos here. -/
def IntStrategy.simplify (r : ℕ → ℕ) (x : ℤ) : List ℤ :=
  if x < 0 then -x :: (simplifyPos r (-x)).map (fun y => -y)
  else if 0 < x then simplifyPos r x
  else []

/-- IntStrategy.to_basic (numbers.py line 46): the identity, injected into
the Basic wire form. -/
def IntStrategy.to_basic (t : ℤ) : Basic := .int t

/-- IntStrategy.from_basic (numbers.py line 42): a type check followed by
the identity. -/
def IntStrategy.from_basic (data : Basic) : Except PyErr ℤ :=
  check_data_type_int data

/-- BoundedIntStrategy state: the inclusive endpoints.  The source field
name end is a Lean keyword and is called stop here. -/
structure BoundedIntStrategy where
  start : ℤ
  stop : ℤ
deriving DecidableEq

/-- BoundedIntStrategy.__init__ (numbers.py lines 108-120): raises
ValueError('Invalid range [start, end]') when start > end, otherwise
constructs the strategy.  The subsequent params.NonEmptySubset construction
is not among the given sources; per the spec it succeeds for every valid
range, so construction fails exactly on inverted bounds. -/
def BoundedIntStrategy.init (start stop : ℤ) : Except PyErr BoundedIntStrategy :=
  if start > stop then
    .error (.valueError ("Invalid range [" ++ toString start ++ ", " ++ toString stop ++ "]"))
  else
    .ok ⟨start, stop⟩

/-- BoundedIntStrategy.produce_template (numbers.py lines 129-132): return
start itself for a one-point range, otherwise random.choice from the drawn
parameter tuple.  random.choice is modelled by an arbitrary index oracle
reduced modulo the tuple length, which like choice selects some element of
a non-empty tuple. -/
def BoundedIntStrategy.produce_template (s : BoundedIntStrategy)
    (choice : ℕ) (parameter : List ℤ) : ℤ :=
  if s.start = s.stop then s.start
  else parameter.getD (choice % parameter.length) 0

/-- Modelled from the spec: params.NonEmptySubset is not among the given
sources; per the spec the parameter drawn for a bounded-range strategy is a
randomly activated non-empty subset of the admissible range, so a valid
drawn parameter is a non-empty list of values inside [start, stop]. -/
def BoundedIntStrategy.validParameter (s : BoundedIntStrategy) (p : List ℤ) : Prop :=
  p ≠ [] ∧ ∀ v ∈ p, s.start ≤ v ∧ v ≤ s.stop

/-- BoundedIntStrategy.simplify (numbers.py lines 134-143): nothing for the
lower endpoint; otherwise count down from x - 1 to start, and when x lies
strictly above mid = (start + end) // 2 also yield the reflection
start + (end - x) followed by x + 1 up to end.  Python floor division //
is Int.fdiv. -/
def BoundedIntStrategy.simplify (s : BoundedIntStrategy) (x : ℤ) : List ℤ :=
  if x = s.start then []
  else
    hrangeDown (x - 1) (s.start - 1) ++
      (if Int.fdiv (s.start + s.stop) 2 < x then
        (s.start + (s.stop - x)) :: hrangeUp (x + 1) (s.stop + 1)
      else [])

/-- BoundedIntStrategy.to_basic (numbers.py line 126): the identity. -/
def BoundedIntStrategy.to_basic (t : ℤ) : Basic := .int t

/-- BoundedIntStrategy.from_basic (numbers.py line 122): a type check
followed by the identity. -/
def BoundedIntStrategy.from_basic (data : Basic) : Except PyErr ℤ :=
  check_data_type_int data

/-- Python floats are IEEE-754 binary64 values, identified with their
64-bit pattern (sign bit, 11 exponent bits, 52 fraction bits). -/
structure PyFloat where
  bits : Fin (2 ^ 64)
deriving DecidableEq

/-- Build a PyFloat from a bit pattern. -/
def mkF (n : ℕ) : PyFloat := ⟨⟨n % 2 ^ 64, Nat.mod_lt _ (by norm_num)⟩⟩

/-- Sign bit of a double. -/
def PyFloat.sgn (x : PyFloat) : ℕ := x.bits.val / 2 ^ 63

/-- Biased exponent field of a double. -/
def PyFloat.expf (x : PyFloat) : ℕ := x.bits.val / 2 ^ 52 % 2 ^ 11

/-- Fraction field of a double. -/
def PyFloat.frac (x : PyFloat) : ℕ := x.bits.val % 2 ^ 52

/-- math.isnan: exponent field all ones with a nonzero fraction. -/
def PyFloat.isnan (x : PyFloat) : Bool := x.expf == 2047 && x.frac != 0

/-- math.isinf: exponent field all ones with a zero fraction. -/
def PyFloat.isinf (x : PyFloat) : Bool := x.expf == 2047 && x.frac == 0

/-- Powers of two as integers, computed in ℕ so that kernel evaluation of
the model is fast. -/
def pow2 (n : ℕ) : ℤ := ((2 ^ n : ℕ) : ℤ)

/-- Real value of a finite double, scaled by 2^1074 so that it is an exact
integer: a subnormal is ±frac·2^-1074 and a normal is
±(2^52 + frac)·2^(expf - 1075).  On nan and inf patterns this returns a
large junk integer that no caller interprets. -/
def PyFloat.val (x : PyFloat) : ℤ :=
  let s : ℤ := if x.sgn = 1 then -1 else 1
  if x.expf = 0 then s * x.frac
  else s * (pow2 52 + x.frac) * pow2 (x.expf - 1)

/-- Python unary minus on a float: flip the sign bit. -/
def PyFloat.neg (x : PyFloat) : PyFloat :=
  if x.bits.val < 2 ^ 63 then mkF (x.bits.val + 2 ^ 63)
  else mkF (x.bits.val - 2 ^ 63)

/-- Positive zero 0.0. -/
def pzeroF : PyFloat := mkF 0

/-- Negative zero -0.0. -/
def nzeroF : PyFloat := mkF (2 ^ 63)

/-- float('inf'). -/
def pinfF : PyFloat := mkF 0x7ff0000000000000

/-- -float('inf'). -/
def ninfF : PyFloat := mkF 0xfff0000000000000

/-- float('nan'), the quiet nan CPython produces. -/
def nanF : PyFloat := mkF 0x7ff8000000000000

/-- sys.float_info.max, the largest finite double. -/
def maxFiniteF : PyFloat := mkF 0x7fefffffffffffff

/-- -sys.float_info.max. -/
def negMaxFiniteF : PyFloat := mkF 0xffefffffffffffff

/-- The smallest positive subnormal double 5e-324. -/
def minSubF : PyFloat := mkF 1

/-- Round a / 2^sh (a a natural number) to an integer, nearest, ties to
even; sh ≤ 0 means an exact left shift. -/
def rneShift (a : ℕ) (sh : ℤ) : ℤ :=
  if sh ≤ 0 then ((a * 2 ^ (-sh).toNat : ℕ) : ℤ)
  else
    let m : ℕ := 2 ^ sh.toNat
    let q : ℕ := a / m
    let rem : ℕ := a % m
    let half : ℕ := m / 2
    if rem < half then q
    else if half < rem then q + 1
    else if q % 2 = 0 then q else q + 1

/-- Assemble sign, biased exponent and fraction fields into a PyFloat. -/
def mkBits (s E f : ℕ) : PyFloat := mkF (s * 2 ^ 63 + E * 2 ^ 52 + f)

/-- Encode a rounded result ±k·2^t (k ≥ 0; k < 2^52 only together with
t = -1074) as a double: carry a rounded-up k = 2^53 into the next binade,
overflow to a signed infinity, store k < 2^52 as a subnormal. -/
def mkFloat (s : ℕ) (k t : ℤ) : PyFloat :=
  if k = 0 then mkBits s 0 0
  else
    let k2 : ℤ := if k = pow2 53 then pow2 52 else k
    let t2 : ℤ := if k = pow2 53 then t + 1 else t
    if 2047 ≤ t2 + 1075 then mkBits s 2047 0
    else if k2 < pow2 52 then mkBits s 0 k2.toNat
    else mkBits s (t2 + 1075).toNat (k2.toNat - 2 ^ 52)

/-- One chunked halving pass for the floor base-2 logarithm: divide n by
2^chunk while it is at least 2^chunk, adding chunk to the accumulator, for
at most fuel rounds.  Fuel-guarded structural recursion keeps evaluation
shallow. -/
def log2chunk (chunk : ℕ) : ℕ → ℕ → ℕ → ℕ × ℕ
  | 0, acc, n => (acc, n)
  | fuel + 1, acc, n =>
    if n < 2 ^ chunk then (acc, n)
    else log2chunk chunk fuel (acc + chunk) (n / 2 ^ chunk)

/-- Floor base-2 logarithm of a natural number (0 for 0 and 1), by chunked
halving with chunk sizes 1024, 64, 8 and 1.  The fuels make it exact for
every n < 2^8192; every quantity numbers.py ever converts or rounds is
below 2^2100 (the scaled value of a double is below 2^2099 and integer
offsets are bounded by twice a truncated double). -/
def natLog2 (n : ℕ) : ℕ :=
  let p1 := log2chunk 1024 8 0 n
  let p2 := log2chunk 64 20 p1.1 p1.2
  let p3 := log2chunk 8 10 p2.1 p2.2
  (log2chunk 1 10 p3.1 p3.2).1

/-- Round the rational A / 2^p to the nearest double, ties to even.  Every
float operation numbers.py performs (int to float conversion, float
addition, halving) is correctly rounded and has an exact dyadic
intermediate result A / 2^p, so this one function is their exact IEEE-754
semantics.  Since the denominator is a power of two, the floor base-2
logarithm of |A| / 2^p is exactly log2 |A| - p. -/
def roundDouble (A : ℤ) (p : ℕ) : PyFloat :=
  if A = 0 then mkF 0
  else
    let s : ℕ := if A < 0 then 1 else 0
    let a : ℕ := A.natAbs
    let e : ℤ := (natLog2 a : ℤ) - p
    let t : ℤ := max (e - 52) (-1074)
    mkFloat s (rneShift a (t + p)) t

/-- Python float(n) for an integer n, ignoring overflow. -/
def ofIntF (n : ℤ) : PyFloat := roundDouble n 0

/-- Python float(n) as CPython implements it (PyLong_AsDouble): raises
OverflowError, modelled as Option.none, when the rounded result falls
outside the finite double range. -/
def ofIntExc (n : ℤ) : Option PyFloat :=
  let y := ofIntF n
  if y.isinf then Option.none else some y

/-- IEEE double addition for finite x and y, correctly rounded; the exact
sum of two finite doubles is an integer multiple of 2^-1074. -/
def addF (x y : PyFloat) : PyFloat := roundDouble (x.val + y.val) 1074

/-- IEEE double halving x / 2 for finite x. -/
def divF2 (x : PyFloat) : PyFloat := roundDouble x.val 1075

/-- Python int(x) for a finite double x: truncation toward zero. -/
def truncF (x : PyFloat) : ℤ := Int.tdiv x.val (pow2 1074)

/-- math.copysign(sys.float_info.max, x): the largest finite double
carrying the sign bit of x. -/
def copysignMaxF (x : PyFloat) : PyFloat :=
  if x.sgn = 1 then negMaxFiniteF else maxFiniteF

/-- FloatStrategy.to_basic (numbers.py lines 155-159):
struct.unpack('!Q', struct.pack('!d', value))[0] is exactly the IEEE-754
bit pattern of the double read as an unsigned 64-bit integer. -/
def FloatStrategy.to_basic (value : PyFloat) : Basic := .int value.bits.val

/-- FloatStrategy.from_basic (numbers.py lines 161-168): the integer type
check (see check_data_type_int), then struct.pack('!Q', value), which
raises struct.error outside [0, 2^64); the except clause re-raises that as
BadData. -/
def FloatStrategy.from_basic (data : Basic) : Except PyErr PyFloat :=
  match check_data_type_int data with
  | .error e => .error e
  | .ok n =>
    if 0 ≤ n ∧ n < pow2 64 then .ok (mkF n.toNat)
    else .error (.badData "argument out of range")

/-- The loop for m in self.int_strategy.simplify(n): yield x + (m - n)
(numbers.py lines 193-194).  CPython converts the integer m - n to a
double before adding; when that conversion overflows, the OverflowError is
caught by the surrounding try and ends the whole try block, dropping the
remaining offset candidates. -/
def addsLoop (x : PyFloat) (n : ℤ) : List ℤ → List PyFloat
  | [] => []
  | m :: ms =>
    match ofIntExc (m - n) with
    | Option.none => []
    | some d => addF x d :: addsLoop x n ms

/-- The try block of FloatStrategy.simplify (numbers.py lines 188-196) for
finite x (int(x) raises only on nan or inf, which earlier branches handle):
n = int(x); y = float(n); if x != y, yield y; then the offsets loop.  The
float(n) conversion is guarded by the same try as the loop. -/
def tryPart (r : ℕ → ℕ) (x : PyFloat) : List PyFloat :=
  let n := truncF x
  match ofIntExc n with
  | Option.none => []
  | some y =>
    (if y.val = x.val then [] else [y]) ++ addsLoop x n (IntStrategy.simplify r n)

/-- FloatStrategy.simplify (numbers.py lines 170-198).  Under IEEE equality
x == 0.0 holds exactly for the two zero bit patterns; nan compares unequal
to everything and PyFloat.val is nonzero on every nonzero finite, infinite
or nan pattern, so the test is val x = 0 here.  Likewise x < 0 for the
remaining finite x is val x < 0 and abs(x) > 1.0 is 2^1074 < natAbs (val x). -/
def FloatStrategy.simplify (r : ℕ → ℕ) (x : PyFloat) : List PyFloat :=
  if x.val = 0 then []
  else if x.isnan then [pzeroF, pinfF, ninfF]
  else if x.isinf then [copysignMaxF x]
  else
    (if x.val < 0 then [x.neg] else []) ++
      [pzeroF] ++ tryPart r x ++
      (if 2 ^ 1074 < x.val.natAbs then [divF2 x] else [])

/-- Python values carried through the deferred driver of
hypothesis.extra.twisted (only structure over them matters here). -/
inductive PyVal where
  | none
  | int (n : ℤ)
  | str (s : String)
deriving DecidableEq

/-- A Python exception instance, as carried by a twisted Failure. -/
inductive Exc where
  | exc (name : String) (msg : String)
deriving DecidableEq

/-- The completion state of the done Deferred: done_d.callback(v) or
done_d.errback() with the current exception wrapped as a Failure. -/
inductive DResult where
  | callback (v : PyVal)
  | errback (e : Exc)
deriving DecidableEq

/-- What _iter_defer feeds back into the generator: g.send(result) for a
plain result, or throwExceptionIntoGenerator for a Failure result. -/
inductive SendRes where
  | send (v : PyVal)
  | throwIn (e : Exc)

mutual
/-- An argument of defer_driver: either a plain non-generator value or a
generator (twisted.py line 13 distinguishes them with isinstance). -/
inductive Body where
  | value (v : PyVal)
  | gen (g : Gen)
/-- A generator test body as the driver observes it: each resume step
(g.send or throwExceptionIntoGenerator) either raises the early-return
signal Return(v) (modelled from the spec: hypothesis.core.Return is not
among the given sources; per the spec it is a distinguished early-return
signal carrying a value), runs to exhaustion raising StopIteration, raises
some other exception, or yields a value together with the continuation for
the next resume.  A Gen value is the outcome of the current resume; the
root is the outcome of the initial g.send(None). -/
inductive Gen where
  | ret (v : PyVal)
  | stop
  | raise (e : Exc)
  | yld (y : Yielded) (k : SendRes → Gen)
/-- A value yielded by the body: either a Deferred that has already fired
with a result (the synchronously completing case; a still-pending Deferred
parks the loop on the reactor, which is outside a shallow embedding), or a
non-Deferred value, which _iter_defer wraps through defer_driver. -/
inductive Yielded where
  | fired (r : DResult)
  | sub (b : Body)
end

mutual
/-- defer_driver (twisted.py lines 11-17): a non-generator argument
completes the done Deferred with itself at once; a generator is driven by
_iter_defer starting from send(None). -/
def defer_driver : Body → DResult
  | .value v => .callback v
  | .gen g => iter_defer g
/-- The loop body of _iter_defer (twisted.py lines 20-41), named without
the leading underscore: resume the generator; Return(e) completes with
e.value, StopIteration completes with None, any other exception completes
the Deferred as a failure; a yielded non-Deferred is driven recursively,
and a fired Deferred result is sent (or thrown) back in, continuing the
loop. -/
def iter_defer : Gen → DResult
  | .ret v => .callback v
  | .stop => .callback .none
  | .raise e => .errback e
  | .yld y k =>
    let res : DResult :=
      match y with
      | .fired d => d
      | .sub b => defer_driver b
    iter_defer (k (match res with | .callback v => .send v | .errback e => .throwIn e))
end

/-- The list a, a-1, ..., b (empty when a < b): a descending run stated
independently of the Python range transcription. -/
def descTo (a b : ℤ) : List ℤ :=
  (List.range (a - b + 1).toNat).map (fun (k : ℕ) => a - (k : ℤ))

/-- The list a, a+1, ..., b (empty when b < a): an ascending run stated
independently of the Python range transcription. -/
def ascTo (a b : ℤ) : List ℤ :=
  (List.range (b - a + 1).toNat).map (fun (k : ℕ) => a + (k : ℤ))

/-- The bounded-range simplify sequence exactly as the claim words it:
every integer strictly between start and x in decreasing order, then,
exactly when x lies in the upper half of the range, the reflection
start + (end - x) followed by everything above x up to end, and nothing
else. -/
def specBoundedSimplify (s : BoundedIntStrategy) (x : ℤ) : List ℤ :=
  if x = s.start then []
  else
    descTo (x - 1) (s.start + 1) ++
      (if Int.fdiv (s.start + s.stop) 2 < x then
        (s.start + (s.stop - x)) :: ascTo (x + 1) s.stop
      else [])

/-- The generic float simplify sequence exactly as the claim words it for
finite nonzero x: -x first when negative, then 0.0, then float(n) when it
differs from x, then x + (m - n) for each m in the integer simplification
of n, and finally x/2 when the magnitude exceeds one. -/
def specFloatSimplify (r : ℕ → ℕ) (x : PyFloat) : List PyFloat :=
  if x.val = 0 then []
  else if x.isnan then [pzeroF, pinfF, ninfF]
  else if x.isinf then [copysignMaxF x]
  else
    (if x.val < 0 then [x.neg] else []) ++
      [pzeroF] ++
      (let n := truncF x
       (if (ofIntF n).val = x.val then [] else [ofIntF n]) ++
        (IntStrategy.simplify r n).map (fun m => addF x (ofIntF (m - n)))) ++
      (if 2 ^ 1074 < x.val.natAbs then [divF2 x] else [])

/-- Repeatedly replace a template by the first element of its simplify
sequence: after k steps, some x when the path is still running, none once a
simplify call returned an empty sequence. -/
def iterFirst (f : ℤ → List ℤ) : ℕ → ℤ → Option ℤ
  | 0, x => some x
  | k + 1, x =>
    match (f x).head? with
    | Option.none => Option.none
    | some y => iterFirst f k y

/-- Unfolding FloatStrategy.from_basic on an integer basic value. -/
theorem FloatStrategy.from_basic_int (n : ℤ) :
    FloatStrategy.from_basic (.int n) =
      if 0 ≤ n ∧ n < pow2 64 then .ok (mkF n.toNat)
      else .error (.badData "argument out of range") := rfl

/-- C1: Serialization round-trip.  For the integer strategies,
from_basic after to_basic is the identity on every integer template; for
the float strategies, from_basic after to_basic reproduces every float
bit-for-bit, in particular each of 0.0, -0.0, nan, +inf, -inf, the largest
finite double and the smallest positive subnormal. -/
theorem roundtrip_basic :
    (∀ t : ℤ, IntStrategy.from_basic (IntStrategy.to_basic t) = .ok t) ∧
    (∀ t : ℤ, BoundedIntStrategy.from_basic (BoundedIntStrategy.to_basic t) = .ok t) ∧
    (∀ x : PyFloat, FloatStrategy.from_basic (FloatStrategy.to_basic x) = .ok x) ∧
    (FloatStrategy.from_basic (FloatStrategy.to_basic pzeroF) = .ok pzeroF ∧
      FloatStrategy.from_basic (FloatStrategy.to_basic nzeroF) = .ok nzeroF ∧
      FloatStrategy.from_basic (FloatStrategy.to_basic nanF) = .ok nanF ∧
      FloatStrategy.from_basic (FloatStrategy.to_basic pinfF) = .ok pinfF ∧
      FloatStrategy.from_basic (FloatStrategy.to_basic ninfF) = .ok ninfF ∧
      FloatStrategy.from_basic (FloatStrategy.to_basic maxFiniteF) = .ok maxFiniteF ∧
      FloatStrategy.from_basic (FloatStrategy.to_basic minSubF) = .ok minSubF) := by
  refine ⟨fun t => rfl, fun t => rfl, fun x => ?_, by decide, by decide, by decide,
    by decide, by decide, by decide, by decide⟩
  show FloatStrategy.from_basic (.int x.bits.val) = .ok x
  have hlt : (x.bits.val : ℤ) < pow2 64 := by
    have h := x.bits.isLt
    simp only [pow2]
    exact_mod_cast h
  rw [FloatStrategy.from_basic_int, if_pos ⟨Int.ofNat_nonneg _, hlt⟩]
  obtain ⟨⟨v, hv⟩⟩ := x
  simp [mkF, Nat.mod_eq_of_lt hv]
  omega

/-- C2: Generic integer simplify boundary cases: simplify(0) is empty,
simplify(1) is exactly [0], simplify(2) is exactly [0, 1], and simplify(100)
is 0, then 50, then 99, 98, ..., 1 in decreasing order with 50 omitted and
nothing else, for every draw oracle (100 takes the deterministic small
branch). -/
theorem int_simplify_boundary :
    ∀ r : ℕ → ℕ,
      IntStrategy.simplify r 0 = [] ∧
      IntStrategy.simplify r 1 = [0] ∧
      IntStrategy.simplify r 2 = [0, 1] ∧
      IntStrategy.simplify r 100 =
        0 :: 50 :: (descTo 99 1).filter (fun i => i ≠ 50) :=
  fun _ => ⟨rfl, rfl, rfl, rfl⟩

/-- C3: FloatStrategy.from_basic signals BadData, and no other error
class, on every malformed input: on every integer outside [0, 2^64) and on
every non-integer basic value; on well-formed inputs it returns a float. -/
theorem float_from_basic_baddata :
    (∀ n : ℤ, 0 ≤ n → n < pow2 64 →
      ∃ x : PyFloat, FloatStrategy.from_basic (.int n) = .ok x) ∧
    (∀ n : ℤ, n < 0 ∨ pow2 64 ≤ n →
      ∃ msg, FloatStrategy.from_basic (.int n) = .error (.badData msg)) ∧
    (∀ b : Basic, (∀ n : ℤ, b ≠ .int n) →
      ∃ msg, FloatStrategy.from_basic b = .error (.badData msg)) := by
  refine ⟨fun n h0 h64 => ?_, fun n h => ?_, fun b hb => ?_⟩
  · rw [FloatStrategy.from_basic_int, if_pos ⟨h0, h64⟩]
    exact ⟨_, rfl⟩
  · rw [FloatStrategy.from_basic_int, if_neg (by rintro ⟨h1, h2⟩; rcases h with h | h <;> omega)]
    exact ⟨_, rfl⟩
  · cases b with
    | int n => exact absurd rfl (hb n)
    | str s => exact ⟨_, rfl⟩
    | list xs => exact ⟨_, rfl⟩
    | none => exact ⟨_, rfl⟩

/-- C3 witness: from_basic accepts 5, and signals BadData at -1, at 2^64
and at a non-integer basic value. -/
theorem float_from_basic_baddata_witness :
    (∃ x : PyFloat, FloatStrategy.from_basic (.int 5) = .ok x) ∧
    (∃ msg, FloatStrategy.from_basic (.int (-1)) = .error (.badData msg)) ∧
    (∃ msg, FloatStrategy.from_basic (.int (pow2 64)) = .error (.badData msg)) ∧
    (∃ msg, FloatStrategy.from_basic Basic.none = .error (.badData msg)) :=
  ⟨float_from_basic_baddata.1 5 (by decide) (by decide),
    float_from_basic_baddata.2.1 (-1) (Or.inl (by decide)),
    float_from_basic_baddata.2.1 (pow2 64) (Or.inr le_rfl),
    float_from_basic_baddata.2.2 Basic.none (fun n h => Basic.noConfusion h)⟩

/-- C4: Bounded-range construction edge: with start = end construction
succeeds and produce_template returns start for every randomness source and
parameter; with start > end construction fails with the invalid-range
ValueError. -/
theorem bounded_range_construction_edge :
    (∀ a : ℤ, BoundedIntStrategy.init a a = .ok ⟨a, a⟩ ∧
      ∀ (choice : ℕ) (parameter : List ℤ),
        BoundedIntStrategy.produce_template ⟨a, a⟩ choice parameter = a) ∧
    (∀ a b : ℤ, b < a →
      BoundedIntStrategy.init a b =
        .error (.valueError
          ("Invalid range [" ++ toString a ++ ", " ++ toString b ++ "]"))) := by
  constructor
  · intro a
    refine ⟨?_, fun choice parameter => ?_⟩
    · simp [BoundedIntStrategy.init]
    · simp [BoundedIntStrategy.produce_template]
  · intro a b h
    simp [BoundedIntStrategy.init, h]

/-- C4 witness: the strategy over [5, 5] constructs and always produces 5;
the bounds (6, 5) are rejected with the invalid-range ValueError. -/
theorem bounded_range_construction_edge_witness :
    BoundedIntStrategy.init 5 5 = .ok ⟨5, 5⟩ ∧
    BoundedIntStrategy.produce_template ⟨5, 5⟩ 3 [9] = 5 ∧
    BoundedIntStrategy.init 6 5 =
      .error (.valueError
        ("Invalid range [" ++ toString (6 : ℤ) ++ ", " ++ toString (5 : ℤ) ++ "]")) :=
  ⟨(bounded_range_construction_edge.1 5).1,
    (bounded_range_construction_edge.1 5).2 3 [9],
    bounded_range_construction_edge.2 6 5 (by decide)⟩

/-- C9: Deferred driver completion outcomes: a non-generator body
completes the Deferred with itself; a generator raising the early-return
signal completes with the carried value; a generator raising any other
exception completes as a failure carrying it unchanged; a generator running
to exhaustion completes with the distinct no-value outcome None, which is
neither a failure nor a value-carrying success. -/
theorem defer_driver_outcomes :
    (∀ v : PyVal, defer_driver (.value v) = .callback v) ∧
    (∀ v : PyVal, defer_driver (.gen (.ret v)) = .callback v) ∧
    (∀ e : Exc, defer_driver (.gen (.raise e)) = .errback e) ∧
    defer_driver (.gen .stop) = .callback .none ∧
    (∀ (v : PyVal) (e : Exc),
      DResult.callback PyVal.none ≠ DResult.errback e ∧
      (v ≠ .none → DResult.callback PyVal.none ≠ DResult.callback v)) := by
  refine ⟨fun v => rfl, fun v => rfl, fun e => rfl, rfl, fun v e => ⟨fun h => ?_, fun hv h => ?_⟩⟩
  · exact DResult.noConfusion h
  · exact hv (by injection h with h2; exact h2.symm)

/-- C9 witness: concrete immediate bodies produce each outcome. -/
theorem defer_driver_outcomes_witness :
    defer_driver (.value (.int 7)) = .callback (.int 7) ∧
    defer_driver (.gen (.ret (.int 7))) = .callback (.int 7) ∧
    defer_driver (.gen (.raise (.exc "ValueError" "boom"))) =
      .errback (.exc "ValueError" "boom") ∧
    defer_driver (.gen .stop) = .callback .none ∧
    DResult.callback PyVal.none ≠ DResult.callback (.int 7) :=
  ⟨defer_driver_outcomes.1 _, defer_driver_outcomes.2.1 _, defer_driver_outcomes.2.2.1 _,
    defer_driver_outcomes.2.2.2.1,
    (defer_driver_outcomes.2.2.2.2 (.int 7) (.exc "ValueError" "boom")).2 (by simp)⟩

/-- C10: Generic float simplify on negative zero yields the empty sequence
for every draw oracle, because -0.0 compares equal to 0.0 under IEEE
equality, even though the serialized basic forms of -0.0 and 0.0 differ. -/
theorem neg_zero_simplify_empty :
    ∀ r : ℕ → ℕ, FloatStrategy.simplify r nzeroF = [] ∧
      FloatStrategy.to_basic nzeroF ≠ FloatStrategy.to_basic pzeroF := by
  intro r
  constructor
  · have h : nzeroF.val = 0 := by decide
    simp [FloatStrategy.simplify, h]
  · intro h
    simp only [FloatStrategy.to_basic, Basic.int.injEq] at h
    exact absurd h (by decide)

/-- Python floor division by 2 agrees with Euclidean division by 2. -/
theorem fdiv_two_eq (a : ℤ) : Int.fdiv a 2 = a / 2 :=
  Int.fdiv_eq_ediv a (by norm_num)

/-- Membership in a descending Python range. -/
theorem mem_hrangeDown {a b t : ℤ} : t ∈ hrangeDown a b ↔ b < t ∧ t ≤ a := by
  unfold hrangeDown
  simp only [List.mem_map, List.mem_range]
  constructor
  · rintro ⟨k, hk, rfl⟩
    omega
  · rintro ⟨h1, h2⟩
    exact ⟨(a - t).toNat, by omega, by omega⟩

/-- Membership in an ascending Python range. -/
theorem mem_hrangeUp {a b t : ℤ} : t ∈ hrangeUp a b ↔ a ≤ t ∧ t < b := by
  unfold hrangeUp
  simp only [List.mem_map, List.mem_range]
  constructor
  · rintro ⟨k, hk, rfl⟩
    omega
  · rintro ⟨h1, h2⟩
    exact ⟨(t - a).toNat, by omega, by omega⟩

/-- A non-empty descending Python range starts at its upper endpoint. -/
theorem head?_hrangeDown {a b : ℤ} (h : b < a) : (hrangeDown a b).head? = some a := by
  unfold hrangeDown
  have hn : (a - b).toNat = (a - b - 1).toNat + 1 := by omega
  rw [hn, List.range_succ_eq_map]
  simp

/-- The head of an append is the head of a non-empty first part. -/
theorem head?_append_of_head? {α : Type} {A B : List α} {a : α}
    (h : A.head? = some a) : (A ++ B).head? = some a := by
  cases A with
  | nil => simp at h
  | cons x xs => simpa using h

/-- Python range(a, b-1, -1) is the descending run from a down to b. -/
theorem hrangeDown_eq_descTo (a b : ℤ) : hrangeDown a (b - 1) = descTo a b := by
  unfold hrangeDown descTo
  rw [show (a - (b - 1)).toNat = (a - b + 1).toNat from by omega]

/-- Python range(a, b+1) is the ascending run from a up to b. -/
theorem hrangeUp_eq_ascTo (a b : ℤ) : hrangeUp a (b + 1) = ascTo a b := by
  unfold hrangeUp ascTo
  rw [show (b + 1 - a).toNat = (b - a + 1).toNat from by omega]

/-- Everything the sampling loop yields was drawn. -/
theorem bigLoop_subset : ∀ (draws seen : List ℤ) (t : ℤ), t ∈ bigLoop draws seen → t ∈ draws := by
  intro draws
  induction draws with
  | nil => intro seen t ht; simp [bigLoop] at ht
  | cons i rest ih =>
    intro seen t ht
    unfold bigLoop at ht
    by_cases hi : i ∈ seen
    · rw [if_pos hi] at ht
      exact List.mem_cons_of_mem _ (ih _ _ ht)
    · rw [if_neg hi] at ht
      rcases List.mem_cons.mp ht with rfl | ht2
      · exact List.mem_cons_self _ _
      · exact List.mem_cons_of_mem _ (ih _ _ ht2)

/-- The sampling loop yields at most one value per draw. -/
theorem bigLoop_length_le : ∀ (draws seen : List ℤ), (bigLoop draws seen).length ≤ draws.length := by
  intro draws
  induction draws with
  | nil => intro seen; simp [bigLoop]
  | cons i rest ih =>
    intro seen
    unfold bigLoop
    by_cases hi : i ∈ seen
    · rw [if_pos hi]
      exact le_trans (ih _) (by simp)
    · rw [if_neg hi]
      simpa using ih (i :: seen)

/-- Every value the positive-branch simplify yields is smaller than its
argument. -/
theorem mem_simplifyPos_lt {r : ℕ → ℕ} {x t : ℤ} (hx : 0 < x)
    (ht : t ∈ simplifyPos r x) : t < x := by
  unfold simplifyPos at ht
  rcases List.mem_cons.mp ht with rfl | ht
  · omega
  by_cases hx1 : x = 1
  · rw [if_pos hx1] at ht
    simp at ht
  rw [if_neg hx1] at ht
  rcases List.mem_cons.mp ht with rfl | ht
  · rw [fdiv_two_eq]
    omega
  by_cases hx2 : x = 2
  · rw [if_pos hx2] at ht
    simp at ht
  rw [if_neg hx2] at ht
  by_cases hsmall : x ≤ 100
  · rw [if_pos hsmall] at ht
    have := (mem_hrangeDown.mp (List.mem_filter.mp ht).1).2
    omega
  · rw [if_neg hsmall] at ht
    have hdraw := bigLoop_subset _ _ _ ht
    simp only [List.mem_map, List.mem_range] at hdraw
    obtain ⟨k, _, rfl⟩ := hdraw
    exact Int.emod_lt_of_pos _ hx

/-- The positive-branch simplify yields at most x + 103 values. -/
theorem simplifyPos_length_le (r : ℕ → ℕ) (x : ℤ) :
    (simplifyPos r x).length ≤ x.natAbs + 103 := by
  unfold simplifyPos
  by_cases hx1 : x = 1
  · simp [hx1]
  rw [if_neg hx1]
  by_cases hx2 : x = 2
  · simp [hx2]
  rw [if_neg hx2]
  by_cases hsmall : x ≤ 100
  · rw [if_pos hsmall]
    have h1 : ((hrangeDown (x - 1) 0).filter (fun i => i ≠ Int.fdiv x 2)).length ≤
        (hrangeDown (x - 1) 0).length := List.length_filter_le _ _
    have h2 : (hrangeDown (x - 1) 0).length = (x - 1 - 0).toNat := by
      unfold hrangeDown
      rw [List.length_map, List.length_range]
    simp only [List.length_cons]
    omega
  · rw [if_neg hsmall]
    have h1 := bigLoop_length_le ((List.range 100).map (fun k => (r k : ℤ) % x))
      [0, Int.fdiv x 2]
    simp only [List.length_map, List.length_range] at h1
    simp only [List.length_cons]
    omega

/-- The head of the generic integer simplify sequence: -x for negative x,
0 for positive x, nothing for 0. -/
theorem int_simplify_head (r : ℕ → ℕ) (x : ℤ) :
    (IntStrategy.simplify r x).head? =
      if x < 0 then some (-x) else if 0 < x then some 0 else Option.none := by
  unfold IntStrategy.simplify
  by_cases hneg : x < 0
  · rw [if_pos hneg, if_pos hneg]
    rfl
  rw [if_neg hneg, if_neg hneg]
  by_cases hpos : 0 < x
  · rw [if_pos hpos, if_pos hpos]
    rfl
  · rw [if_neg hpos, if_neg hpos]
    rfl

/-- One step of the first-shrink path, when the sequence offers a head. -/
theorem iterFirst_succ_of_head (f : ℤ → List ℤ) (k : ℕ) (x y : ℤ)
    (h : (f x).head? = some y) : iterFirst f (k + 1) x = iterFirst f k y := by
  have hstep : iterFirst f (k + 1) x =
      match (f x).head? with
      | Option.none => Option.none
      | some y => iterFirst f k y := rfl
  rw [hstep, h]

/-- One step of the first-shrink path, when the sequence is empty. -/
theorem iterFirst_succ_of_none (f : ℤ → List ℤ) (k : ℕ) (x : ℤ)
    (h : (f x).head? = Option.none) : iterFirst f (k + 1) x = Option.none := by
  have hstep : iterFirst f (k + 1) x =
      match (f x).head? with
      | Option.none => Option.none
      | some y => iterFirst f k y := rfl
  rw [hstep, h]

/-- The first-shrink path starting at 0 dies immediately. -/
theorem iterFirst_int_zero (r : ℕ → ℕ) (k : ℕ) :
    iterFirst (IntStrategy.simplify r) (k + 1) 0 = Option.none := rfl

/-- The first-shrink path from a positive x goes to 0 and dies. -/
theorem iterFirst_int_pos (r : ℕ → ℕ) (x : ℤ) (hx : 0 < x) (k : ℕ) :
    iterFirst (IntStrategy.simplify r) (k + 1) x =
      if k = 0 then some 0 else Option.none := by
  have hhead : (IntStrategy.simplify r x).head? = some 0 := by
    rw [int_simplify_head, if_neg (by omega), if_pos hx]
  rw [iterFirst_succ_of_head _ _ _ _ hhead]
  cases k with
  | zero => rfl
  | succ j => exact iterFirst_int_zero r j

/-- The head of the bounded simplify sequence above the lower endpoint. -/
theorem bounded_simplify_head (s : BoundedIntStrategy) (x : ℤ) (h : s.start < x) :
    (s.simplify x).head? = some (x - 1) := by
  unfold BoundedIntStrategy.simplify
  rw [if_neg (by omega)]
  exact head?_append_of_head? (head?_hrangeDown (by omega))

/-- The first-shrink path of the bounded strategy: after k steps it sits at
x - k until it reaches start, after which it dies. -/
theorem bounded_iterFirst (s : BoundedIntStrategy) :
    ∀ (k : ℕ) (x : ℤ), s.start ≤ x → x ≤ s.stop →
      iterFirst s.simplify k x =
        if (k : ℤ) ≤ x - s.start then some (x - k) else Option.none := by
  intro k
  induction k with
  | zero =>
    intro x h1 h2
    rw [if_pos (by omega)]
    simp [iterFirst]
  | succ j ih =>
    intro x h1 h2
    by_cases hx : x = s.start
    · subst hx
      have hempty : s.simplify s.start = [] := by
        unfold BoundedIntStrategy.simplify
        rw [if_pos rfl]
      rw [iterFirst_succ_of_none _ _ _ (by rw [hempty]; rfl), if_neg (by push_cast; omega)]
    · have hh := bounded_simplify_head s x (by omega)
      rw [iterFirst_succ_of_head _ _ _ _ hh, ih (x - 1) (by omega) (by omega)]
      by_cases hc : (j : ℤ) ≤ x - 1 - s.start
      · rw [if_pos hc, if_pos (by push_cast; omega)]
        congr 1
        push_cast
        ring
      · rw [if_neg hc, if_neg (by push_cast at hc ⊢; omega)]

/-- C5: Range containment: with valid bounds and a valid drawn parameter,
every produced template lies in [start, stop], and for every template in
[start, stop] every simplify candidate lies in [start, stop] as well. -/
theorem bounded_range_containment :
    (∀ (s : BoundedIntStrategy) (choice : ℕ) (parameter : List ℤ),
      s.start ≤ s.stop → s.validParameter parameter →
      s.start ≤ s.produce_template choice parameter ∧
        s.produce_template choice parameter ≤ s.stop) ∧
    (∀ (s : BoundedIntStrategy) (x t : ℤ), s.start ≤ x → x ≤ s.stop →
      t ∈ s.simplify x → s.start ≤ t ∧ t ≤ s.stop) := by
  constructor
  · intro s choice parameter hle hp
    unfold BoundedIntStrategy.produce_template
    by_cases heq : s.start = s.stop
    · rw [if_pos heq]
      omega
    · rw [if_neg heq]
      have hlen : choice % parameter.length < parameter.length :=
        Nat.mod_lt _ (List.length_pos.mpr hp.1)
      have hmem : parameter.getD (choice % parameter.length) 0 ∈ parameter := by
        rw [List.getD_eq_getElem parameter 0 hlen]
        exact List.getElem_mem hlen
      exact hp.2 _ hmem
  · intro s x t h1 h2 ht
    unfold BoundedIntStrategy.simplify at ht
    by_cases hx : x = s.start
    · rw [if_pos hx] at ht
      simp at ht
    rw [if_neg hx] at ht
    rcases List.mem_append.mp ht with ht | ht
    · have := mem_hrangeDown.mp ht
      omega
    by_cases hmid : Int.fdiv (s.start + s.stop) 2 < x
    · rw [if_pos hmid] at ht
      rw [fdiv_two_eq] at hmid
      rcases List.mem_cons.mp ht with rfl | ht2
      · omega
      · have := mem_hrangeUp.mp ht2
        omega
    · rw [if_neg hmid] at ht
      simp at ht

/-- C5 witness: the strategy over [0, 10] with parameter [3, 4] produces
inside the range, and the candidate 6 of simplify(7) lies inside it. -/
theorem bounded_range_containment_witness :
    ((0 : ℤ) ≤ BoundedIntStrategy.produce_template ⟨0, 10⟩ 2 [3, 4] ∧
      BoundedIntStrategy.produce_template ⟨0, 10⟩ 2 [3, 4] ≤ 10) ∧
    ((0 : ℤ) ≤ 6 ∧ (6 : ℤ) ≤ 10) :=
  ⟨bounded_range_containment.1 ⟨0, 10⟩ 2 [3, 4] (by decide)
      ⟨by simp, by decide⟩,
    bounded_range_containment.2 ⟨0, 10⟩ 7 6 (by decide) (by decide) (by decide)⟩

/-- C6 counterexample: over [0, 10] at x = 3 the claimed sequence, the
integers strictly between start and x in decreasing order and nothing more
below the midpoint, is [2, 1], but the code also yields the lower endpoint:
[2, 1, 0]. -/
theorem bounded_simplify_spec_counterexample :
    (BoundedIntStrategy.mk 0 10).simplify 3 ≠
      specBoundedSimplify (BoundedIntStrategy.mk 0 10) 3 ∧
    (BoundedIntStrategy.mk 0 10).simplify 3 = [2, 1, 0] ∧
    specBoundedSimplify (BoundedIntStrategy.mk 0 10) 3 = [2, 1] :=
  ⟨by decide, by decide, by decide⟩

/-- C6 amended: simplify(start) is empty, and for start ≤ x ≤ end the
sequence is every integer from x - 1 down to start inclusive in decreasing
order, then, exactly when x exceeds the floor midpoint (start + end) // 2,
the reflection start + (end - x) followed by x + 1, ..., end, and nothing
else. -/
theorem bounded_simplify_characterization :
    (∀ s : BoundedIntStrategy, s.simplify s.start = []) ∧
    (∀ (s : BoundedIntStrategy) (x : ℤ), s.start ≤ x → x ≤ s.stop →
      s.simplify x =
        descTo (x - 1) s.start ++
          (if Int.fdiv (s.start + s.stop) 2 < x then
            (s.start + (s.stop - x)) :: ascTo (x + 1) s.stop
          else [])) := by
  constructor
  · intro s
    unfold BoundedIntStrategy.simplify
    rw [if_pos rfl]
  · intro s x h1 h2
    unfold BoundedIntStrategy.simplify
    by_cases hx : x = s.start
    · subst hx
      rw [if_pos rfl]
      have hmid : ¬ Int.fdiv (s.start + s.stop) 2 < s.start := by
        rw [fdiv_two_eq]
        omega
      rw [if_neg hmid]
      have : descTo (s.start - 1) s.start = [] := by
        unfold descTo
        rw [show (s.start - 1 - s.start + 1).toNat = 0 by omega]
        rfl
      rw [this]
      rfl
    · rw [if_neg hx, ← hrangeDown_eq_descTo, ← hrangeUp_eq_ascTo]

/-- C6 amended witness: the characterization evaluated over [0, 10] at the
lower endpoint and at x = 7. -/
theorem bounded_simplify_characterization_witness :
    (BoundedIntStrategy.mk 0 10).simplify 0 = [] ∧
    (BoundedIntStrategy.mk 0 10).simplify 7 =
      descTo 6 0 ++
        (if Int.fdiv (0 + 10) 2 < 7 then ((0 : ℤ) + (10 - 7)) :: ascTo 8 10 else []) :=
  ⟨bounded_simplify_characterization.1 ⟨0, 10⟩,
    bounded_simplify_characterization.2 ⟨0, 10⟩ 7 (by decide) (by decide)⟩

/-- C8: Shrink termination and no revisiting: both integer simplify
sequences are finite, with explicit length bounds witnessing termination of
the lazy generators; no sequence ever yields its own argument; and the path
that repeatedly takes the first offered simplification never returns to its
starting value. -/
theorem shrink_termination_no_revisit :
    (∀ (r : ℕ → ℕ) (x : ℤ), (IntStrategy.simplify r x).length ≤ x.natAbs + 104) ∧
    (∀ (s : BoundedIntStrategy) (x : ℤ),
      (s.simplify x).length ≤ (x - s.start).toNat + 1 + (s.stop - x).toNat) ∧
    (∀ (r : ℕ → ℕ) (x t : ℤ), t ∈ IntStrategy.simplify r x → t ≠ x) ∧
    (∀ (s : BoundedIntStrategy) (x t : ℤ), s.start ≤ x → x ≤ s.stop →
      t ∈ s.simplify x → t ≠ x) ∧
    (∀ (r : ℕ → ℕ) (x : ℤ) (k : ℕ), 1 ≤ k →
      iterFirst (IntStrategy.simplify r) k x ≠ some x) ∧
    (∀ (s : BoundedIntStrategy) (x : ℤ) (k : ℕ), s.start ≤ x → x ≤ s.stop → 1 ≤ k →
      iterFirst s.simplify k x ≠ some x) := by
  refine ⟨?_, ?_, ?_, ?_, ?_, ?_⟩
  · intro r x
    unfold IntStrategy.simplify
    by_cases hneg : x < 0
    · rw [if_pos hneg]
      have := simplifyPos_length_le r (-x)
      simp only [List.length_cons, List.length_map]
      omega
    rw [if_neg hneg]
    by_cases hpos : 0 < x
    · rw [if_pos hpos]
      have := simplifyPos_length_le r x
      omega
    · rw [if_neg hpos]
      simp
  · intro s x
    unfold BoundedIntStrategy.simplify
    by_cases hx : x = s.start
    · rw [if_pos hx]
      simp
    rw [if_neg hx]
    rw [List.length_append]
    have hd : (hrangeDown (x - 1) (s.start - 1)).length = (x - 1 - (s.start - 1)).toNat := by
      simp [hrangeDown]
    by_cases hmid : Int.fdiv (s.start + s.stop) 2 < x
    · rw [if_pos hmid]
      have hu : (hrangeUp (x + 1) (s.stop + 1)).length = (s.stop + 1 - (x + 1)).toNat := by
        simp [hrangeUp]
      simp only [List.length_cons]
      omega
    · rw [if_neg hmid]
      simp only [List.length_nil]
      omega
  · intro r x t ht
    unfold IntStrategy.simplify at ht
    by_cases hneg : x < 0
    · rw [if_pos hneg] at ht
      rcases List.mem_cons.mp ht with rfl | ht2
      · omega
      · simp only [List.mem_map] at ht2
        obtain ⟨y, hy, rfl⟩ := ht2
        have := mem_simplifyPos_lt (by omega) hy
        omega
    rw [if_neg hneg] at ht
    by_cases hpos : 0 < x
    · rw [if_pos hpos] at ht
      have := mem_simplifyPos_lt hpos ht
      omega
    · rw [if_neg hpos] at ht
      simp at ht
  · intro s x t h1 h2 ht
    unfold BoundedIntStrategy.simplify at ht
    by_cases hx : x = s.start
    · rw [if_pos hx] at ht
      simp at ht
    rw [if_neg hx] at ht
    rcases List.mem_append.mp ht with ht | ht
    · have := mem_hrangeDown.mp ht
      omega
    by_cases hmid : Int.fdiv (s.start + s.stop) 2 < x
    · rw [if_pos hmid] at ht
      rw [fdiv_two_eq] at hmid
      rcases List.mem_cons.mp ht with rfl | ht2
      · omega
      · have := mem_hrangeUp.mp ht2
        omega
    · rw [if_neg hmid] at ht
      simp at ht
  · intro r x k hk
    obtain ⟨j, rfl⟩ : ∃ j, k = j + 1 := ⟨k - 1, by omega⟩
    by_cases hneg : x < 0
    · have hhead : (IntStrategy.simplify r x).head? = some (-x) := by
        rw [int_simplify_head, if_pos hneg]
      rw [iterFirst_succ_of_head _ _ _ _ hhead]
      cases j with
      | zero =>
        simp only [iterFirst]
        intro h
        injection h with h
        omega
      | succ i =>
        rw [iterFirst_int_pos r (-x) (by omega) i]
        by_cases hi : i = 0
        · rw [if_pos hi]
          intro h
          injection h with h
          omega
        · rw [if_neg hi]
          exact Option.noConfusion
    by_cases hpos : 0 < x
    · rw [iterFirst_int_pos r x hpos j]
      by_cases hj : j = 0
      · rw [if_pos hj]
        intro h
        injection h with h
        omega
      · rw [if_neg hj]
        exact Option.noConfusion
    · have hx0 : x = 0 := by omega
      subst hx0
      rw [iterFirst_int_zero r j]
      exact Option.noConfusion
  · intro s x k h1 h2 hk
    rw [bounded_iterFirst s k x h1 h2]
    by_cases hc : (k : ℤ) ≤ x - s.start
    · rw [if_pos hc]
      intro h
      injection h with h
      omega
    · rw [if_neg hc]
      exact Option.noConfusion

/-- C8 witness: no-revisit facts evaluated for the generic strategy at 7
and for the bounded strategy over [0, 10] at 7. -/
theorem shrink_termination_no_revisit_witness :
    ((5 : ℤ) ≠ 7 ∧ (3 : ℤ) ≠ 7) ∧
    iterFirst (IntStrategy.simplify (fun _ => 0)) 2 7 ≠ some 7 ∧
    iterFirst ((BoundedIntStrategy.mk 0 10).simplify) 2 7 ≠ some 7 :=
  ⟨⟨shrink_termination_no_revisit.2.2.1 (fun _ => 0) 7 5 (by decide),
      shrink_termination_no_revisit.2.2.2.1 ⟨0, 10⟩ 7 3 (by decide) (by decide) (by decide)⟩,
    shrink_termination_no_revisit.2.2.2.2.1 (fun _ => 0) 7 2 (by norm_num),
    shrink_termination_no_revisit.2.2.2.2.2 ⟨0, 10⟩ 7 2 (by decide) (by decide) (by norm_num)⟩

/-- A float pattern with a nonzero exponent field has a nonzero scaled
value (covers all normals and the junk values of nan and inf patterns). -/
theorem val_ne_zero_of_expf_ne_zero {x : PyFloat} (h : x.expf ≠ 0) : x.val ≠ 0 := by
  unfold PyFloat.val
  rw [if_neg h]
  have h1 : (0 : ℤ) < pow2 52 + x.frac := by
    unfold pow2
    positivity
  have h2 : (0 : ℤ) < pow2 (x.expf - 1) := by
    unfold pow2
    positivity
  have hs : (if x.sgn = 1 then (-1 : ℤ) else 1) ≠ 0 := by
    split_ifs <;> norm_num
  exact mul_ne_zero (mul_ne_zero hs (by omega)) (by omega)

/-- Unpacking math.isnan. -/
theorem isnan_iff {x : PyFloat} : x.isnan = true ↔ x.expf = 2047 ∧ x.frac ≠ 0 := by
  unfold PyFloat.isnan
  simp

/-- Unpacking math.isinf. -/
theorem isinf_iff {x : PyFloat} : x.isinf = true ↔ x.expf = 2047 ∧ x.frac = 0 := by
  unfold PyFloat.isinf
  simp

/-- The offsets loop equals the convertible prefix of the integer simplify
sequence, mapped through the float addition: it stops at the first offset
whose int-to-float conversion overflows. -/
theorem addsLoop_eq_takeWhile (x : PyFloat) (n : ℤ) : ∀ ms : List ℤ,
    addsLoop x n ms =
      (ms.takeWhile (fun m => !(ofIntF (m - n)).isinf)).map
        (fun m => addF x (ofIntF (m - n))) := by
  intro ms
  induction ms with
  | nil => rfl
  | cons m rest ih =>
    unfold addsLoop ofIntExc
    by_cases h : (ofIntF (m - n)).isinf
    · simp [h, List.takeWhile_cons]
    · simp [h, List.takeWhile_cons, ih]

/-- The try block of FloatStrategy.simplify, written as the claim words it
plus the abort behaviour: for n = int(x), unless float(n) itself overflows,
yield float(n) when it differs from x, then x + (m - n) for each m in the
integer simplification of n up to but excluding the first m whose offset
m - n overflows the int-to-float conversion. -/
theorem tryPart_eq_takeWhile (r : ℕ → ℕ) (x : PyFloat) :
    tryPart r x =
      if (ofIntF (truncF x)).isinf = true then [] else
        (if (ofIntF (truncF x)).val = x.val then [] else [ofIntF (truncF x)]) ++
          ((IntStrategy.simplify r (truncF x)).takeWhile
              (fun m => !(ofIntF (m - truncF x)).isinf)).map
            (fun m => addF x (ofIntF (m - truncF x))) := by
  unfold tryPart ofIntExc
  by_cases h : (ofIntF (truncF x)).isinf
  · simp [h]
  · simp [h, addsLoop_eq_takeWhile]

/-- C7 amended: the float simplify sequence.  simplify(0.0) and
simplify(-0.0) are empty; simplify(nan) is exactly 0.0, +inf, -inf in that
order; simplify of an infinity is exactly the largest finite double of the
same sign; and for finite nonzero x the sequence is -x first when x is
negative, then always 0.0, then (unless float(n) for n = int(x) overflows,
which cannot occur for a finite x but is guarded by the try block) float(n)
when float(n) != x, then x + (m - n) for each m in the integer
simplification of n up to but excluding the first m whose offset m - n
overflows the int-to-float conversion (the caught OverflowError ends the
try block and drops the remaining offset candidates), and finally x / 2
when the magnitude of x exceeds 1. -/
theorem float_simplify_characterization :
    (∀ (r : ℕ → ℕ) (x : PyFloat), x.val = 0 → FloatStrategy.simplify r x = []) ∧
    (∀ (r : ℕ → ℕ) (x : PyFloat), x.isnan = true →
      FloatStrategy.simplify r x = [pzeroF, pinfF, ninfF]) ∧
    (∀ (r : ℕ → ℕ) (x : PyFloat), x.isinf = true →
      FloatStrategy.simplify r x = [if x.sgn = 1 then negMaxFiniteF else maxFiniteF]) ∧
    (∀ (r : ℕ → ℕ) (x : PyFloat), x.isnan = false → x.isinf = false → x.val ≠ 0 →
      FloatStrategy.simplify r x =
        (if x.val < 0 then [x.neg] else []) ++ [pzeroF] ++
          (if (ofIntF (truncF x)).isinf = true then [] else
            (if (ofIntF (truncF x)).val = x.val then [] else [ofIntF (truncF x)]) ++
              ((IntStrategy.simplify r (truncF x)).takeWhile
                  (fun m => !(ofIntF (m - truncF x)).isinf)).map
                (fun m => addF x (ofIntF (m - truncF x)))) ++
          (if 2 ^ 1074 < x.val.natAbs then [divF2 x] else [])) := by
  refine ⟨fun r x h => ?_, fun r x h => ?_, fun r x h => ?_, fun r x hnan hinf h0 => ?_⟩
  · unfold FloatStrategy.simplify
    rw [if_pos h]
  · have hv : x.val ≠ 0 :=
      val_ne_zero_of_expf_ne_zero (by rw [(isnan_iff.mp h).1]; norm_num)
    unfold FloatStrategy.simplify
    rw [if_neg hv, if_pos h]
  · have hv : x.val ≠ 0 :=
      val_ne_zero_of_expf_ne_zero (by rw [(isinf_iff.mp h).1]; norm_num)
    have hnan : ¬ x.isnan = true := by
      rw [isnan_iff]
      rintro ⟨h1, h2⟩
      exact h2 (isinf_iff.mp h).2
    unfold FloatStrategy.simplify
    rw [if_neg hv, if_neg hnan, if_pos h]
    unfold copysignMaxF
    rfl
  · unfold FloatStrategy.simplify
    rw [if_neg h0, if_neg (by rw [hnan]; exact Bool.false_ne_true),
      if_neg (by rw [hinf]; exact Bool.false_ne_true), tryPart_eq_takeWhile]

/-- C7 amended witness: the characterization evaluated at -0.0, nan, -inf
and 2.5 (bit patterns spelled out), with a constant draw oracle. -/
theorem float_simplify_characterization_witness :
    FloatStrategy.simplify (fun _ => 0) nzeroF = [] ∧
    FloatStrategy.simplify (fun _ => 0) nanF = [pzeroF, pinfF, ninfF] ∧
    FloatStrategy.simplify (fun _ => 0) ninfF =
      [if ninfF.sgn = 1 then negMaxFiniteF else maxFiniteF] ∧
    FloatStrategy.simplify (fun _ => 0) (mkF (1024 * 2 ^ 52 + 2 ^ 50)) =
      (if (mkF (1024 * 2 ^ 52 + 2 ^ 50)).val < 0 then [(mkF (1024 * 2 ^ 52 + 2 ^ 50)).neg]
        else []) ++ [pzeroF] ++
        (if (ofIntF (truncF (mkF (1024 * 2 ^ 52 + 2 ^ 50)))).isinf = true then [] else
          (if (ofIntF (truncF (mkF (1024 * 2 ^ 52 + 2 ^ 50)))).val =
              (mkF (1024 * 2 ^ 52 + 2 ^ 50)).val then []
            else [ofIntF (truncF (mkF (1024 * 2 ^ 52 + 2 ^ 50)))]) ++
            ((IntStrategy.simplify (fun _ => 0) (truncF (mkF (1024 * 2 ^ 52 + 2 ^ 50)))).takeWhile
                (fun m => !(ofIntF (m - truncF (mkF (1024 * 2 ^ 52 + 2 ^ 50)))).isinf)).map
              (fun m => addF (mkF (1024 * 2 ^ 52 + 2 ^ 50))
                (ofIntF (m - truncF (mkF (1024 * 2 ^ 52 + 2 ^ 50)))))) ++
        (if 2 ^ 1074 < (mkF (1024 * 2 ^ 52 + 2 ^ 50)).val.natAbs
          then [divF2 (mkF (1024 * 2 ^ 52 + 2 ^ 50))] else []) :=
  ⟨float_simplify_characterization.1 (fun _ => 0) nzeroF (by decide),
    float_simplify_characterization.2.1 (fun _ => 0) nanF (by decide),
    float_simplify_characterization.2.2.1 (fun _ => 0) ninfF (by decide),
    float_simplify_characterization.2.2.2 (fun _ => 0) (mkF (1024 * 2 ^ 52 + 2 ^ 50))
      (by decide) (by decide) (by decide)⟩

/-- C7 counterexample: at x = -2^1023 (bit pattern 2^63 + 2046·2^52) the
sequence the claim describes contains x + (m - n) for every m in the
integer simplification of n = int(x), but the first such offset m - n is
-2n = 2^1024, whose int-to-float conversion overflows; the caught
OverflowError ends the try block, so the code yields only [-x, 0.0, x/2]
while the claimed sequence has six elements. -/
theorem float_simplify_spec_counterexample :
    FloatStrategy.simplify (fun _ => 0) (mkF (2 ^ 63 + 2046 * 2 ^ 52)) ≠
      specFloatSimplify (fun _ => 0) (mkF (2 ^ 63 + 2046 * 2 ^ 52)) ∧
    FloatStrategy.simplify (fun _ => 0) (mkF (2 ^ 63 + 2046 * 2 ^ 52)) =
      [mkF (2046 * 2 ^ 52), pzeroF, mkF (2 ^ 63 + 2045 * 2 ^ 52)] ∧
    (specFloatSimplify (fun _ => 0) (mkF (2 ^ 63 + 2046 * 2 ^ 52))).length = 6 :=
  ⟨by decide, by decide, by decide⟩

/-- Concrete evaluations of the integer simplify model, matching a hand
trace of the CPython generator: simplify(5) is [0, 2, 4, 3, 1], simplify(-5)
is [5, 0, -2, -4, -3, -1], and for 101 the sampled branch runs with the
draws of the given oracle, skipping already-seen values. -/
theorem int_simplify_eval :
    IntStrategy.simplify (fun _ => 0) 5 = [0, 2, 4, 3, 1] ∧
    IntStrategy.simplify (fun _ => 0) (-5) = [5, 0, -2, -4, -3, -1] ∧
    IntStrategy.simplify (fun k => k + 7) 101 =
      0 :: 50 :: (((List.range 94).map (fun k => (k : ℤ) + 7)).filter (fun i => i ≠ 50)
        ++ [1, 2, 3, 4, 5]) :=
  ⟨by decide, by decide, by decide⟩

/-- Concrete evaluation of the bounded simplify model over [0, 10] at 7:
the descending run to the lower bound, then the reflection 3 and the
ascending run to the upper bound. -/
theorem bounded_simplify_eval :
    (BoundedIntStrategy.mk 0 10).simplify 7 = [6, 5, 4, 3, 2, 1, 0, 3, 8, 9, 10] := by
  decide

/-- Concrete evaluations of the float simplify model, matching CPython:
simplify(2.5) is [0.0, 2.0, 0.5, 1.5, 1.25] and simplify(-2.5) is
[2.5, 0.0, -2.0, 1.5, -0.5, -1.5, -1.25], written as bit patterns. -/
theorem float_simplify_eval :
    FloatStrategy.simplify (fun _ => 0) (mkF (1024 * 2 ^ 52 + 2 ^ 50)) =
      [pzeroF, mkF (1024 * 2 ^ 52), mkF (1022 * 2 ^ 52),
        mkF (1023 * 2 ^ 52 + 2 ^ 51), mkF (1023 * 2 ^ 52 + 2 ^ 50)] ∧
    FloatStrategy.simplify (fun _ => 0) (mkF (2 ^ 63 + 1024 * 2 ^ 52 + 2 ^ 50)) =
      [mkF (1024 * 2 ^ 52 + 2 ^ 50), pzeroF, mkF (2 ^ 63 + 1024 * 2 ^ 52),
        mkF (1023 * 2 ^ 52 + 2 ^ 51), mkF (2 ^ 63 + 1022 * 2 ^ 52),
        mkF (2 ^ 63 + 1023 * 2 ^ 52 + 2 ^ 51),
        mkF (2 ^ 63 + 1023 * 2 ^ 52 + 2 ^ 50)] :=
  ⟨by decide, by decide⟩

/-- The two infinities simplify to the signed largest finite double. -/
theorem float_simplify_inf_eval :
    FloatStrategy.simplify (fun _ => 0) pinfF = [maxFiniteF] ∧
    FloatStrategy.simplify (fun _ => 0) ninfF = [negMaxFiniteF] :=
  ⟨by decide, by decide⟩
